import Mathlib

/-!
Verification of the hybrid candidate-matching engine and the force-directed
graph simulator of the skill-matching demo application.

Sources embedded here:
* `src/unnamed/part_010` — embedding utilities: `hashString`, the seeded PRNG,
  the mock provider's `generate`, and `cosineSimilarity`;
* `src/constants/SkillTypes.ts` — `useCandidateSearch` (the hybrid search
  pipeline);
* `src/components/KnowledgeGraph.tsx` — `simulateStep` (per-tick physics).

Modelling conventions:
* JavaScript numbers are modelled as exact rationals (`ℚ`).  `Math.sqrt` is
  irrational on `ℚ`, so every function that calls it takes a square-root
  oracle `sq : ℚ → ℚ` as a parameter; theorems that depend on the value of a
  square root carry the hypothesis that `sq` is exact (`sq v * sq v = v`) at
  the inputs involved.  Division by zero is `0` in `ℚ` while JavaScript
  produces `Infinity`/`NaN`; every place where this matters is annotated and
  all concrete counterexamples avoid the divergent points.
* `Array.prototype.sort` is stable (ECMAScript 2019); it is modelled by the
  stable `List.insertionSort` from Mathlib, applied to the comparator's
  ordering (`(a, b) => k(b) - k(a)` becomes the relation `k b ≤ k a`).
* Rejected promises / thrown exceptions become `Except String`; the
  `try`/`catch` at the top of the search becomes a total wrapper.
* `processRecord` only rewrites the `created`/`updated` timestamp fields of a
  record, so it is modelled as the identity.
* The data store is modelled by the lists a query would return; a store-level
  failure is representable as the `Except` error of the pipeline.
-/

namespace Demo

instance {ε α : Type} [DecidableEq ε] [DecidableEq α] : DecidableEq (Except ε α) := fun x y =>
  match x, y with
  | .ok a, .ok b =>
      if h : a = b then .isTrue (by rw [h]) else .isFalse (by simp [h])
  | .error a, .error b =>
      if h : a = b then .isTrue (by rw [h]) else .isFalse (by simp [h])
  | .ok _, .error _ => .isFalse (by simp)
  | .error _, .ok _ => .isFalse (by simp)

/-! ## Vector utilities (src/unnamed/part_010, lines 298–315) -/

/-- Dot product of two vectors, as accumulated by the loop in
`cosineSimilarity` (the loop runs over indices of `a`; the lengths are equal
whenever it runs). -/
def dotProduct (a b : List ℚ) : ℚ :=
  (List.zipWith (fun x y => x * y) a b).sum

/-- Sum of squares of a vector: the `normA`/`normB` accumulators of
`cosineSimilarity` before `Math.sqrt` is applied. -/
def normSq (a : List ℚ) : ℚ :=
  (a.map (fun x => x * x)).sum

/-- Embedding of `cosineSimilarity(a, b)`: throws on length mismatch (the
source message interpolates the two lengths; the constant message stands for
it), otherwise `dot / (sqrt(normA) * sqrt(normB))` with the explicit
`magnitude === 0 ? 0 : ...` guard. -/
def cosineSimilarity (sq : ℚ → ℚ) (a b : List ℚ) : Except String ℚ :=
  if a.length ≠ b.length then
    .error "Vector dimension mismatch"
  else
    let magnitude := sq (normSq a) * sq (normSq b)
    .ok (if magnitude = 0 then 0 else dotProduct a b / magnitude)

/-- Square-root oracle used by concrete witnesses: exact on the handful of
perfect squares the examples need, `0` elsewhere. -/
def sqrtOracle : ℚ → ℚ := fun x =>
  if x = 0 then 0
  else if x = 1 then 1
  else if x = 1 / 4 then 1 / 2
  else if x = 25 then 5
  else 0

/-! ## Mock embedding provider (src/unnamed/part_010, lines 65–106)

`hashString` works on JavaScript 32-bit signed integer semantics: `<< 5` and
`& hash` both pass through `ToInt32`.  The intermediate float arithmetic is
exact for these magnitudes.  `charCodeAt` yields UTF-16 code units, which for
the code points of interest equal `Char.toNat`.  The PRNG update
`(state * 1103515245 + 12345) & 0x7fffffff` is `ToInt32` followed by masking
the low 31 bits, i.e. reduction mod `2^31` (for the exact-integer model; the
source's float multiplication may round above 2^53, which changes values but
none of the structural properties claimed).  The final normalisation divides
by `Math.sqrt` of the norm, which is irrational on `ℚ`, so the raw
(pre-normalisation) vector is the computable definition and the
normalisation appears in the theorem over `ℝ`. -/

/-- JavaScript `ToInt32`: wrap an exact integer into `[-2^31, 2^31)`. -/
def toInt32 (x : ℤ) : ℤ := (x + 2 ^ 31) % 2 ^ 32 - 2 ^ 31

/-- One iteration of `hashString`: `hash = ((hash << 5) - hash) + char` then
`hash = hash & hash`. -/
def hashStep (h : ℤ) (c : ℕ) : ℤ := toInt32 (toInt32 (h * 32) - h + c)

/-- `hashString(str)`: fold the per-character step over the code units,
starting from 0. -/
def hashString (s : String) : ℤ := s.data.foldl (fun h c => hashStep h c.toNat) 0

/-- One update of `seededRandom`'s state:
`state = (state * 1103515245 + 12345) & 0x7fffffff`. -/
def prngStep (s : ℤ) : ℤ := (s * 1103515245 + 12345) % 2 ^ 31

/-- The list of `n` pseudo-random values `random() * 2 - 1` drawn from the
given state; `random()` returns `state / 0x7fffffff` after updating. -/
def mockComponents : ℕ → ℤ → List ℚ
  | 0, _ => []
  | n + 1, s =>
      let s1 := prngStep s
      ((s1 : ℚ) / (2 ^ 31 - 1) * 2 - 1) :: mockComponents n s1

/-- The mock provider's raw (pre-normalisation) embedding:
384 PRNG draws seeded with `hashString(text.toLowerCase().trim())`. -/
def mockRawEmbedding (text : String) : List ℚ :=
  mockComponents 384 (hashString (text.toLower.trim))

/-! ## Hybrid candidate search (src/constants/SkillTypes.ts, useCandidateSearch) -/

/-- Skill record as the search uses it: identity plus optional embedding.
Unused columns (name, category, tags, timestamps) are irrelevant to every
claim and are omitted; `processRecord` is the identity on this view. -/
structure Skill where
  sid : ℕ
  embedding : Option (List ℚ)
deriving DecidableEq

/-- Employee record as the search uses it: identity, optional department and
optional embedding. -/
structure Employee where
  eid : ℕ
  department : Option String
  embedding : Option (List ℚ)
deriving DecidableEq

/-- `has_skill` edge: `in` (employee), `out` (skill), proficiency, certified.
`in` is a Lean keyword, so the field is called `src`. -/
structure HasSkillEdge where
  src : ℕ
  out : ℕ
  proficiency : ℕ
  certified : Bool
deriving DecidableEq

/-- One entry of `CandidateMatch.matchedSkills`. -/
structure MatchedSkill where
  skill : Skill
  proficiency : ℕ
  relevance : ℚ
deriving DecidableEq

/-- Ephemeral candidate record produced per query. -/
structure CandidateMatch where
  employee : Employee
  matchScore : ℚ
  matchedSkills : List MatchedSkill
  semanticScore : ℚ
  graphScore : ℚ
deriving DecidableEq

/-- Search result; `queryEmbedding` and `processingTimeMs` are dropped (no
claim mentions them; the timing is wall-clock and outside the model). -/
structure SearchResult where
  candidates : List CandidateMatch
  totalMatches : ℕ
deriving DecidableEq

/-- Input of one search invocation: the query embedding as the outcome of the
awaited `generateEmbedding` call (an error models a rejected promise), the
department filter, the `limit` (destructured with default 10 in the source),
and the store contents the three queries would return. -/
structure SearchInput where
  queryEmbedding : Except String (List ℚ)
  department : Option String
  limit : ℕ := 10
  skills : List Skill
  employees : List Employee
  edges : List HasSkillEdge

/-- Stable sort descending by a rational key: the model of
`array.sort((a, b) => key(b) - key(a))` (ECMAScript sorts are stable;
`List.insertionSort` is the stable sort of Mathlib, and its relation
`key b ≤ key a` places `a` first exactly when the comparator keeps it first,
ties preserving the original order). -/
def sortByDesc {α : Type} (key : α → ℚ) (l : List α) : List α :=
  @List.insertionSort α (fun a b => key b ≤ key a)
    (fun a b => inferInstanceAs (Decidable (key b ≤ key a))) l

/-- Relevance of one skill: cosine similarity with the query embedding when
the skill has one, else the fixed default `0.3` (source line 884). -/
def skillRelevance (sq : ℚ → ℚ) (q : List ℚ) (s : Skill) : Except String ℚ :=
  match s.embedding with
  | some e => cosineSimilarity sq q e
  | none => .ok (3 / 10)

/-- The `allSkills.map (skill, relevance)` stage; the first similarity error
aborts the pipeline (a thrown exception inside `map`). -/
def scoredSkills (sq : ℚ → ℚ) (q : List ℚ) : List Skill → Except String (List (Skill × ℚ))
  | [] => .ok []
  | s :: rest =>
    match skillRelevance sq q s with
    | .error e => .error e
    | .ok v =>
      match scoredSkills sq q rest with
      | .error e => .error e
      | .ok vs => .ok ((s, v) :: vs)

/-- Step 2 of the search: score every skill, keep relevance strictly above
`0.4`, sort by relevance descending, truncate to the top 15. -/
def relevantSkills (sq : ℚ → ℚ) (q : List ℚ) (skills : List Skill) :
    Except String (List (Skill × ℚ)) :=
  match scoredSkills sq q skills with
  | .error e => .error e
  | .ok scored =>
    .ok ((sortByDesc (fun p => p.2) (scored.filter (fun p => decide ((2 : ℚ) / 5 < p.2)))).take 15)

/-- Step 3: the employee fetch with the optional department equality filter
applied at the store level. -/
def fetchEmployees (dept : Option String) (employees : List Employee) : List Employee :=
  match dept with
  | some d => employees.filter (fun e => e.department == some d)
  | none => employees

/-- Inner loop over one employee's `has_skill` edges: accumulates the matched
skill records and the graph score, in edge order.  For each edge the first
relevant entry with the edge's skill id is looked up; a hit contributes
`(proficiency / 5) * relevance`, plus `0.1` when certified. -/
def accumulateMatches (rel : List (Skill × ℚ)) (acc : List MatchedSkill × ℚ)
    (e : HasSkillEdge) : List MatchedSkill × ℚ :=
  match rel.find? (fun rs => rs.1.sid == e.out) with
  | some rs =>
      (acc.1 ++ [⟨rs.1, e.proficiency, rs.2⟩],
       acc.2 + (e.proficiency : ℚ) / 5 * rs.2 + (if e.certified then 1 / 10 else 0))
  | none => acc

/-- Matched-skill list and graph score of one employee's edge list. -/
def scoreEmployee (rel : List (Skill × ℚ)) (empEdges : List HasSkillEdge) :
    List MatchedSkill × ℚ :=
  empEdges.foldl (accumulateMatches rel) ([], 0)

/-- Weight one edge contributes to the graph score: the first relevant entry
carrying the edge's skill id gives `(proficiency / 5) * relevance` plus `0.1`
when certified; an edge whose skill is not in the relevant set contributes
nothing. -/
def edgeWeight (rel : List (Skill × ℚ)) (e : HasSkillEdge) : ℚ :=
  match rel.find? (fun rs => rs.1.sid == e.out) with
  | some rs => (e.proficiency : ℚ) / 5 * rs.2 + (if e.certified then 1 / 10 else 0)
  | none => 0

/-- The matched-skill record one edge contributes, if any. -/
def matchedOf (rel : List (Skill × ℚ)) (e : HasSkillEdge) : Option MatchedSkill :=
  (rel.find? (fun rs => rs.1.sid == e.out)).map (fun rs => ⟨rs.1, e.proficiency, rs.2⟩)

/-- Step 4: walk the fetched employees in order; an employee with at least one
matched skill becomes a candidate with semantic score from its embedding
(default `0.5` when absent — a similarity error there is a thrown exception),
the combined score `graphScore * 0.6 + semanticScore * 0.4`, and its matched
skills sorted by relevance descending. -/
def buildCandidates (sq : ℚ → ℚ) (q : List ℚ) (rel : List (Skill × ℚ))
    (edges : List HasSkillEdge) : List Employee → Except String (List CandidateMatch)
  | [] => .ok []
  | emp :: rest =>
    let scored := scoreEmployee rel (edges.filter (fun e => e.src == emp.eid))
    if 0 < scored.1.length then
      match (match emp.embedding with
             | some e => cosineSimilarity sq q e
             | none => .ok (1 / 2) : Except String ℚ) with
      | .error e => .error e
      | .ok semanticScore =>
        match buildCandidates sq q rel edges rest with
        | .error e => .error e
        | .ok cs =>
          .ok ({ employee := emp,
                 matchScore := scored.2 * (3 / 5) + semanticScore * (2 / 5),
                 matchedSkills := sortByDesc (fun m => m.relevance) scored.1,
                 semanticScore := semanticScore,
                 graphScore := scored.2 } :: cs)
    else buildCandidates sq q rel edges rest

/-- The whole `mutationFn` body inside the `try`: embedding, relevant skills,
the zero-relevant-skills short circuit, employee fetch, scoring, final sort
and truncation.  `totalMatches` is the pre-truncation length. -/
def searchE (sq : ℚ → ℚ) (inp : SearchInput) : Except String SearchResult :=
  match inp.queryEmbedding with
  | .error e => .error e
  | .ok q =>
    match relevantSkills sq q inp.skills with
    | .error e => .error e
    | .ok rel =>
      if rel.length = 0 then
        .ok ⟨[], 0⟩
      else
        match buildCandidates sq q rel inp.edges (fetchEmployees inp.department inp.employees) with
        | .error e => .error e
        | .ok cands =>
          let sorted := sortByDesc (fun c => c.matchScore) cands
          .ok ⟨sorted.take inp.limit, sorted.length⟩

/-- The public operation: the top-level `try`/`catch` converts any error into
the empty result with zero `totalMatches` (errors are only logged). -/
def search (sq : ℚ → ℚ) (inp : SearchInput) : SearchResult :=
  match searchE sq inp with
  | .ok r => r
  | .error _ => ⟨[], 0⟩

/-! ## Force-directed simulator (src/components/KnowledgeGraph.tsx, simulateStep) -/

/-- Node kind discriminator of the visualization. -/
inductive NodeType where
  | employee
  | skill
deriving DecidableEq

/-- Visualization node: identity, kind, position and velocity (label, color
and radius are render-only and omitted). -/
structure GraphNode where
  nid : ℕ
  ntype : NodeType
  x : ℚ
  y : ℚ
  vx : ℚ
  vy : ℚ
deriving DecidableEq

/-- Visualization edge; a missing `proficiency` is modelled as `0`, which the
source treats like `undefined` through `edge.proficiency || 3`. -/
structure GraphEdge where
  source : ℕ
  target : ℕ
  proficiency : ℕ
deriving DecidableEq

/-- Repulsion constant: larger for same-type pairs (2500) than for cross-type
pairs (1500) — source line 218. -/
def repulsionStrength (sameType : Bool) : ℚ :=
  if sameType then 2500 else 1500

/-- Pairwise repulsion contribution of one other node (source lines 209–223).
`dist` is `Math.sqrt(distSq) || 1`: the 1-unit floor applies to the
direction-normalising distance only.  The force magnitude itself is
`strength / distSq` with no floor; at `distSq = 0` JavaScript yields an
infinite force whose `0 * Infinity` components are `NaN`, while `ℚ` division
gives `0` — all theorems about this definition stay away from `distSq = 0`. -/
def repulsionForce (sq : ℚ → ℚ) (nx ny ox oy : ℚ) (sameType : Bool) : ℚ × ℚ :=
  let dx := nx - ox
  let dy := ny - oy
  let distSq := dx * dx + dy * dy
  let dist := if sq distSq = 0 then 1 else sq distSq
  let force := repulsionStrength sameType / distSq
  (dx / dist * force, dy / dist * force)

/-- Edge-attraction contribution of one edge touching the node (source lines
226–243): spring toward a target distance `120 - proficiency * 10` (a missing
or zero proficiency counts as 3), proportional to the signed deviation. -/
def edgeAttraction (sq : ℚ → ℚ) (node : GraphNode) (nodes : List GraphNode)
    (acc : ℚ × ℚ) (e : GraphEdge) : ℚ × ℚ :=
  if e.source = node.nid ∨ e.target = node.nid then
    let otherId := if e.source = node.nid then e.target else e.source
    match nodes.find? (fun n => n.nid == otherId) with
    | some other =>
      let dx := other.x - node.x
      let dy := other.y - node.y
      let d0 := sq (dx * dx + dy * dy)
      let dist := if d0 = 0 then 1 else d0
      let targetDist : ℚ := 120 - (if e.proficiency = 0 then 3 else (e.proficiency : ℚ)) * 10
      let force := (dist - targetDist) * (1 / 50)
      (acc.1 + dx / dist * force, acc.2 + dy / dist * force)
    | none => acc
  else acc

/-- One axis of the boundary clamp (source lines 262–266): cross the 40-unit
margin and the coordinate is pinned to the margin while the velocity
component is multiplied by `-0.5`; both sides checked in sequence. -/
def clampAxis (hi : ℚ) (pos vel : ℚ) : ℚ × ℚ :=
  let s1 := if pos < 40 then ((40 : ℚ), vel * (-1 / 2)) else (pos, vel)
  if hi < s1.1 then (hi, s1.2 * (-1 / 2)) else s1

/-- The velocity/position/bounds block of the per-node loop (source lines
245–266), factored out of `applyForcesAt`: add the accumulated force, damp
by 0.85, clamp the speed to 5, advance the position, and clamp both axes
against the margins. -/
def integrate (sq : ℚ → ℚ) (w h : ℚ) (node : GraphNode) (f : ℚ × ℚ) : GraphNode :=
  let vx1 := (node.vx + f.1) * (17 / 20)
  let vy1 := (node.vy + f.2) * (17 / 20)
  let vel := sq (vx1 * vx1 + vy1 * vy1)
  let v2 := if 5 < vel then (vx1 / vel * 5, vy1 / vel * 5) else (vx1, vy1)
  let px := clampAxis (w - 40) (node.x + v2.1) v2.1
  let py := clampAxis (h - 40) (node.y + v2.2) v2.2
  { node with x := px.1, y := py.1, vx := px.2, vy := py.2 }

/-- The body of the per-node loop of `simulateStep`: skip the dragged node,
accumulate center gravity, pairwise repulsion and edge attraction, then
integrate; the node at index `i` is replaced in place, so later indices
observe the update (exactly as the source mutates the array). -/
def applyForcesAt (sq : ℚ → ℚ) (w h : ℚ) (dragging : Option ℕ)
    (edges : List GraphEdge) (nodes : List GraphNode) (i : ℕ) : List GraphNode :=
  match nodes[i]? with
  | none => nodes
  | some node =>
    if dragging = some node.nid then nodes
    else
      let f0 : ℚ × ℚ := ((w / 2 - node.x) * (1 / 2000), (h / 2 - node.y) * (1 / 2000))
      let f1 := nodes.enum.foldl (fun acc jo =>
        if jo.1 = i then acc
        else
          let rf := repulsionForce sq node.x node.y jo.2.x jo.2.y
                      (node.ntype == jo.2.ntype)
          (acc.1 + rf.1, acc.2 + rf.2)) f0
      let f2 := edges.foldl (edgeAttraction sq node nodes) f1
      nodes.set i (integrate sq w h node f2)

/-- One full simulation tick: the source iterates `i` over the node array,
mutating as it goes; the empty-array early return is kept. -/
def simulateStep (sq : ℚ → ℚ) (w h : ℚ) (dragging : Option ℕ)
    (edges : List GraphEdge) (nodes : List GraphNode) : List GraphNode :=
  if nodes.length = 0 then nodes
  else (List.range nodes.length).foldl (applyForcesAt sq w h dragging edges) nodes

/-! ## Concrete store fixtures used by counterexamples and witnesses -/

/-- A skill whose embedding is aligned with the example query. -/
def exSkill : Skill := ⟨1, some [1, 0]⟩

/-- An employee whose embedding is aligned with the example query. -/
def exEmployee : Employee := ⟨2, none, some [1, 0]⟩

/-- A certified proficiency-5 possession edge from the employee to the
skill — all inputs inside their documented ranges. -/
def exEdge : HasSkillEdge := ⟨2, 1, 5, true⟩

/-- Store with the single perfectly-relevant skill and its holder. -/
def exInput : SearchInput :=
  { queryEmbedding := .ok [1, 0], department := none, limit := 10,
    skills := [exSkill], employees := [exEmployee], edges := [exEdge] }

/-- The candidate the example search returns: graph score
`(5/5)·1 + 0.1 = 1.1` and match score `1.1·0.6 + 1·0.4 = 1.06`. -/
def exCandidate : CandidateMatch :=
  ⟨exEmployee, 53 / 50, [⟨exSkill, 5, 1⟩], 1, 11 / 10⟩

/-- A skill with no embedding. -/
def exSkillNoEmb : Skill := ⟨1, none⟩

/-- A second, unembedded skill with a fresh id, for mixed-store witnesses. -/
def exSkillB : Skill := ⟨3, none⟩

/-- Store whose only skill lacks an embedding, held (certified, proficiency
5) by an employee. -/
def exInputNoEmb : SearchInput :=
  { queryEmbedding := .ok [1, 0], department := none, limit := 10,
    skills := [exSkillNoEmb], employees := [exEmployee], edges := [exEdge] }

/-- Store with no skills at all: the relevant set is empty. -/
def emptyStoreInput : SearchInput :=
  { queryEmbedding := .ok [1], department := none, limit := 10,
    skills := [], employees := [], edges := [] }

/-! ## Helper lemmas about the stable sort -/

theorem sortByDesc_perm {α : Type} (key : α → ℚ) (l : List α) :
    (sortByDesc key l).Perm l :=
  List.perm_insertionSort _ l

theorem sortByDesc_length {α : Type} (key : α → ℚ) (l : List α) :
    (sortByDesc key l).length = l.length :=
  (sortByDesc_perm key l).length_eq

theorem mem_sortByDesc {α : Type} (key : α → ℚ) (l : List α) (a : α) :
    a ∈ sortByDesc key l ↔ a ∈ l :=
  (sortByDesc_perm key l).mem_iff

theorem sortByDesc_sorted {α : Type} (key : α → ℚ) (l : List α) :
    (sortByDesc key l).Sorted (fun a b => key b ≤ key a) := by
  haveI : IsTotal α (fun a b => key b ≤ key a) := ⟨fun a b => le_total (key b) (key a)⟩
  haveI : IsTrans α (fun a b => key b ≤ key a) := ⟨fun a b c h1 h2 => le_trans h2 h1⟩
  exact List.sorted_insertionSort _ l

theorem pairwise_orderedInsert_stable {α : Type} (key : α → ℚ) (x : ℕ × α) :
    ∀ s : List (ℕ × α),
      s.Pairwise (fun a b => key b.2 ≤ key a.2 ∧ (key a.2 ≤ key b.2 → a.1 < b.1)) →
      (∀ y ∈ s, x.1 < y.1) →
      (List.orderedInsert (fun a b => key b.2 ≤ key a.2) x s).Pairwise
        (fun a b => key b.2 ≤ key a.2 ∧ (key a.2 ≤ key b.2 → a.1 < b.1))
  | [], _, _ => List.pairwise_singleton _ x
  | y :: ys, hs, hx => by
    obtain ⟨hy, hys⟩ := List.pairwise_cons.mp hs
    by_cases hr : key y.2 ≤ key x.2
    · rw [List.orderedInsert, if_pos hr]
      refine List.pairwise_cons.mpr ⟨?_, hs⟩
      intro z hz
      rcases List.mem_cons.mp hz with hzy | hzys
      · exact ⟨hzy ▸ hr, fun _ => by rw [hzy]; exact hx y (List.mem_cons_self y ys)⟩
      · exact ⟨le_trans (hy z hzys).1 hr, fun _ => hx z (List.mem_cons_of_mem y hzys)⟩
    · rw [List.orderedInsert, if_neg hr]
      refine List.pairwise_cons.mpr ⟨?_, ?_⟩
      · intro z hz
        have hz' : z ∈ x :: ys :=
          (List.perm_orderedInsert (fun a b => key b.2 ≤ key a.2) x ys).subset hz
        rcases List.mem_cons.mp hz' with hzx | hzys
        · subst hzx
          exact ⟨le_of_lt (lt_of_not_le hr), fun hcon => absurd hcon hr⟩
        · exact hy z hzys
      · exact pairwise_orderedInsert_stable key x ys hys
          (fun y' hy' => hx y' (List.mem_cons_of_mem y hy'))

theorem sortByDesc_stable {α : Type} (key : α → ℚ) :
    ∀ l : List (ℕ × α), l.Pairwise (fun a b => a.1 < b.1) →
      (sortByDesc (fun p => key p.2) l).Pairwise
        (fun a b => key b.2 ≤ key a.2 ∧ (key a.2 ≤ key b.2 → a.1 < b.1))
  | [], _ => by simp [sortByDesc, List.insertionSort]
  | x :: t, hl => by
    obtain ⟨hx, ht⟩ := List.pairwise_cons.mp hl
    have ih := sortByDesc_stable key t ht
    simp only [sortByDesc, List.insertionSort] at ih ⊢
    refine pairwise_orderedInsert_stable key x _ ih ?_
    intro y hy
    exact hx y ((List.perm_insertionSort _ t).subset hy)

theorem map_snd_orderedInsert {α : Type} (key : α → ℚ) (x : ℕ × α) :
    ∀ s : List (ℕ × α),
      (List.orderedInsert (fun a b => key b.2 ≤ key a.2) x s).map Prod.snd
        = List.orderedInsert (fun a b => key b ≤ key a) x.2 (s.map Prod.snd)
  | [] => by simp [List.orderedInsert]
  | y :: ys => by
    by_cases hr : key y.2 ≤ key x.2
    · rw [List.orderedInsert, if_pos hr]
      simp only [List.map_cons]
      rw [List.orderedInsert, if_pos hr]
    · rw [List.orderedInsert, if_neg hr]
      simp only [List.map_cons]
      rw [List.orderedInsert, if_neg hr, map_snd_orderedInsert key x ys]

theorem map_snd_sortByDesc_enumFrom {α : Type} (key : α → ℚ) :
    ∀ (l : List α) (n : ℕ),
      (sortByDesc (fun p => key p.2) (List.enumFrom n l)).map Prod.snd = sortByDesc key l
  | [], _ => by simp [sortByDesc, List.insertionSort]
  | x :: t, n => by
    simp only [List.enumFrom_cons, sortByDesc, List.insertionSort]
    rw [map_snd_orderedInsert key (n, x)]
    have ih := map_snd_sortByDesc_enumFrom key t (n + 1)
    simp only [sortByDesc] at ih
    rw [ih]

theorem le_fst_of_mem_enumFrom {α : Type} :
    ∀ (l : List α) (n : ℕ) (y : ℕ × α), y ∈ List.enumFrom n l → n ≤ y.1
  | [], _, _, hy => absurd hy (List.not_mem_nil _)
  | x :: t, n, y, hy => by
    rcases List.mem_cons.mp (by simpa [List.enumFrom_cons] using hy) with h | h
    · subst h; exact le_refl n
    · exact le_trans (Nat.le_succ n) (le_fst_of_mem_enumFrom t (n + 1) y h)

theorem pairwise_fst_lt_enumFrom {α : Type} :
    ∀ (l : List α) (n : ℕ), (List.enumFrom n l).Pairwise (fun a b => a.1 < b.1)
  | [], _ => by simp
  | x :: t, n => by
    rw [List.enumFrom_cons]
    refine List.pairwise_cons.mpr ⟨?_, pairwise_fst_lt_enumFrom t (n + 1)⟩
    intro y hy
    exact lt_of_lt_of_le (Nat.lt_succ_self n) (le_fst_of_mem_enumFrom t (n + 1) y hy)

/-! ## Helper lemmas about the search stages -/

theorem scoredSkills_ok_spec (sq : ℚ → ℚ) (q : List ℚ) :
    ∀ (skills : List Skill) (scored : List (Skill × ℚ)),
      scoredSkills sq q skills = .ok scored →
      scored.map Prod.fst = skills ∧ ∀ p ∈ scored, skillRelevance sq q p.1 = .ok p.2
  | [], scored, h => by
    simp only [scoredSkills] at h
    obtain rfl : ([] : List (Skill × ℚ)) = scored := by
      cases h; rfl
    simp
  | s :: rest, scored, h => by
    simp only [scoredSkills] at h
    cases hv : skillRelevance sq q s with
    | error e => rw [hv] at h; exact absurd h (by simp)
    | ok v =>
      rw [hv] at h
      cases hrest : scoredSkills sq q rest with
      | error e => rw [hrest] at h; exact absurd h (by simp)
      | ok vs =>
        rw [hrest] at h
        obtain rfl : (s, v) :: vs = scored := by cases h; rfl
        obtain ⟨ih1, ih2⟩ := scoredSkills_ok_spec sq q rest vs hrest
        refine ⟨by simp [ih1], ?_⟩
        intro p hp
        rcases List.mem_cons.mp hp with hps | hps
        · subst hps; exact hv
        · exact ih2 p hps

theorem relevantSkills_ok_inversion (sq : ℚ → ℚ) (q : List ℚ) (skills : List Skill)
    (rel : List (Skill × ℚ)) (h : relevantSkills sq q skills = .ok rel) :
    ∃ scored, scoredSkills sq q skills = .ok scored ∧
      rel = (sortByDesc (fun p => p.2)
        (scored.filter (fun p => decide ((2 : ℚ) / 5 < p.2)))).take 15 := by
  simp only [relevantSkills] at h
  cases hs : scoredSkills sq q skills with
  | error e => rw [hs] at h; exact absurd h (by simp)
  | ok scored =>
    rw [hs] at h
    refine ⟨scored, rfl, ?_⟩
    cases h; rfl

theorem foldl_accumulateMatches (rel : List (Skill × ℚ)) :
    ∀ (es : List HasSkillEdge) (acc : List MatchedSkill × ℚ),
      es.foldl (accumulateMatches rel) acc
        = (acc.1 ++ es.filterMap (matchedOf rel), acc.2 + (es.map (edgeWeight rel)).sum)
  | [], acc => by simp
  | e :: rest, acc => by
    rw [List.foldl_cons, foldl_accumulateMatches rel rest]
    rcases hf : rel.find? (fun rs => rs.1.sid == e.out) with _ | rs
    · simp only [accumulateMatches, hf, List.filterMap_cons, matchedOf, Option.map_none',
        List.map_cons, List.sum_cons, edgeWeight, Prod.mk.injEq]
      exact ⟨trivial, by ring⟩
    · simp only [accumulateMatches, hf, List.filterMap_cons, matchedOf, Option.map_some',
        List.map_cons, List.sum_cons, edgeWeight, Prod.mk.injEq]
      exact ⟨by simp, by ring⟩

theorem scoreEmployee_eq (rel : List (Skill × ℚ)) (es : List HasSkillEdge) :
    scoreEmployee rel es = (es.filterMap (matchedOf rel), (es.map (edgeWeight rel)).sum) := by
  rw [scoreEmployee, foldl_accumulateMatches]
  simp

theorem edgeWeight_nonneg (rel : List (Skill × ℚ)) (hrelpos : ∀ p ∈ rel, 0 ≤ p.2)
    (e : HasSkillEdge) : 0 ≤ edgeWeight rel e := by
  rcases hf : rel.find? (fun rs => rs.1.sid == e.out) with _ | rs
  · simp [edgeWeight, hf]
  · have h2 := hrelpos rs (List.mem_of_find?_eq_some hf)
    simp only [edgeWeight, hf]
    have hm : (0 : ℚ) ≤ (e.proficiency : ℚ) / 5 * rs.2 := by positivity
    have hc : (0 : ℚ) ≤ if e.certified then 1 / 10 else 0 := by split <;> norm_num
    linarith

theorem weight_sum_le_matched (rel : List (Skill × ℚ))
    (hrelmax : ∀ p ∈ rel, p.2 ≤ 1) (hrelpos : ∀ p ∈ rel, 0 ≤ p.2) :
    ∀ es : List HasSkillEdge, (∀ e ∈ es, e.proficiency ≤ 5) →
      (es.map (edgeWeight rel)).sum ≤ 11 / 10 * ((es.filterMap (matchedOf rel)).length : ℚ)
  | [], _ => by simp
  | e :: rest, hps => by
    have ih := weight_sum_le_matched rel hrelmax hrelpos rest
      (fun x hx => hps x (List.mem_cons_of_mem e hx))
    rcases hf : rel.find? (fun rs => rs.1.sid == e.out) with _ | rs
    · have hm : matchedOf rel e = none := by simp [matchedOf, hf]
      have hw : edgeWeight rel e = 0 := by simp [edgeWeight, hf]
      simp only [List.map_cons, List.sum_cons, List.filterMap_cons, hm, hw]
      linarith
    · have hm : matchedOf rel e = some ⟨rs.1, e.proficiency, rs.2⟩ := by
        simp [matchedOf, hf]
      have hw : edgeWeight rel e ≤ 11 / 10 := by
        have hrs := List.mem_of_find?_eq_some hf
        have h1 := hrelmax rs hrs
        have h0 := hrelpos rs hrs
        have hpe : (e.proficiency : ℚ) ≤ 5 := by
          exact_mod_cast hps e (List.mem_cons_self e rest)
        simp only [edgeWeight, hf]
        have hmul : (e.proficiency : ℚ) / 5 * rs.2 ≤ 1 :=
          mul_le_one₀ (by linarith) h0 h1
        split <;> linarith
      simp only [List.map_cons, List.sum_cons, List.filterMap_cons, hm]
      rw [List.length_cons]
      push_cast
      linarith

theorem weight_sum_pos (rel : List (Skill × ℚ))
    (hrelpos : ∀ p ∈ rel, 0 ≤ p.2) (hrelfloor : ∀ p ∈ rel, 2 / 5 < p.2)
    (es : List HasSkillEdge) (hprof : ∀ e ∈ es, 1 ≤ e.proficiency)
    (hne : 0 < (es.filterMap (matchedOf rel)).length) :
    0 < (es.map (edgeWeight rel)).sum := by
  obtain ⟨m, hm⟩ := List.exists_mem_of_length_pos hne
  obtain ⟨e, he, hfe⟩ := List.mem_filterMap.mp hm
  rcases hf : rel.find? (fun rs => rs.1.sid == e.out) with _ | rs
  · rw [matchedOf, hf] at hfe
    exact absurd hfe (by simp)
  · have hrs := List.mem_of_find?_eq_some hf
    have h0 := hrelfloor rs hrs
    have hp1 : (1 : ℚ) ≤ (e.proficiency : ℚ) := by exact_mod_cast hprof e he
    have hwpos : 0 < edgeWeight rel e := by
      simp only [edgeWeight, hf]
      have hm2 : (0 : ℚ) < (e.proficiency : ℚ) / 5 * rs.2 :=
        mul_pos (by linarith) (by linarith)
      have hc : (0 : ℚ) ≤ if e.certified then 1 / 10 else 0 := by split <;> norm_num
      linarith
    have hmem : edgeWeight rel e ∈ es.map (edgeWeight rel) := List.mem_map_of_mem _ he
    have hall : ∀ x ∈ es.map (edgeWeight rel), 0 ≤ x := by
      intro x hx
      obtain ⟨e', _, rfl⟩ := List.mem_map.mp hx
      exact edgeWeight_nonneg rel hrelpos e'
    exact lt_of_lt_of_le hwpos (List.single_le_sum hall _ hmem)

theorem relevantSkills_mem_floor (sq : ℚ → ℚ) (q : List ℚ) (skills : List Skill)
    (rel : List (Skill × ℚ)) (h : relevantSkills sq q skills = .ok rel) :
    ∀ p ∈ rel, 2 / 5 < p.2 := by
  obtain ⟨scored, hs, hrel⟩ := relevantSkills_ok_inversion sq q skills rel h
  subst hrel
  intro p hp
  have hp2 := (sortByDesc_perm (fun p : Skill × ℚ => p.2)
    (scored.filter (fun p => decide ((2 : ℚ) / 5 < p.2)))).subset (List.mem_of_mem_take hp)
  exact of_decide_eq_true (List.mem_filter.mp hp2).2

theorem buildCandidates_ok_spec (sq : ℚ → ℚ) (q : List ℚ) (rel : List (Skill × ℚ))
    (edges : List HasSkillEdge) :
    ∀ (emps : List Employee) (full : List CandidateMatch),
      buildCandidates sq q rel edges emps = .ok full →
      (full.map (fun c => c.employee)
        = emps.filter (fun e =>
            decide (0 < ((edges.filter (fun ed => ed.src == e.eid)).filterMap (matchedOf rel)).length))) ∧
      ∀ c ∈ full,
        c.graphScore = ((edges.filter (fun e => e.src == c.employee.eid)).map (edgeWeight rel)).sum ∧
        c.matchedSkills = sortByDesc (fun m => m.relevance)
          ((edges.filter (fun e => e.src == c.employee.eid)).filterMap (matchedOf rel)) ∧
        0 < ((edges.filter (fun e => e.src == c.employee.eid)).filterMap (matchedOf rel)).length ∧
        c.matchScore = c.graphScore * (3 / 5) + c.semanticScore * (2 / 5) ∧
        (c.employee.embedding = none → c.semanticScore = 1 / 2) ∧
        (∀ emb, c.employee.embedding = some emb → cosineSimilarity sq q emb = .ok c.semanticScore)
  | [], full, h => by
    simp only [buildCandidates] at h
    obtain rfl : ([] : List CandidateMatch) = full := by cases h; rfl
    simp
  | emp :: rest, full, h => by
    simp only [buildCandidates] at h
    by_cases hcond :
        0 < (scoreEmployee rel (edges.filter (fun e => e.src == emp.eid))).1.length
    · rw [if_pos hcond] at h
      have hcond' :
          0 < ((edges.filter (fun ed => ed.src == emp.eid)).filterMap (matchedOf rel)).length := by
        rw [scoreEmployee_eq] at hcond
        exact hcond
      cases hsem : (match emp.embedding with
                    | some e => cosineSimilarity sq q e
                    | none => .ok (1 / 2) : Except String ℚ) with
      | error e => rw [hsem] at h; exact absurd h (by simp)
      | ok s =>
        rw [hsem] at h
        cases hrest : buildCandidates sq q rel edges rest with
        | error e => rw [hrest] at h; exact absurd h (by simp)
        | ok cs =>
          rw [hrest] at h
          obtain rfl :
              ({ employee := emp,
                 matchScore := (scoreEmployee rel (edges.filter (fun e => e.src == emp.eid))).2 * (3 / 5)
                   + s * (2 / 5),
                 matchedSkills := sortByDesc (fun m => m.relevance)
                   (scoreEmployee rel (edges.filter (fun e => e.src == emp.eid))).1,
                 semanticScore := s,
                 graphScore := (scoreEmployee rel (edges.filter (fun e => e.src == emp.eid))).2 }
                 : CandidateMatch) :: cs = full := by
            cases h; rfl
          obtain ⟨ih1, ih2⟩ := buildCandidates_ok_spec sq q rel edges rest cs hrest
          constructor
          · simp only [List.map_cons, List.filter_cons]
            rw [if_pos (by simpa using hcond')]
            simp [ih1]
          · intro c hc
            rcases List.mem_cons.mp hc with rfl | hc'
            · refine ⟨by simp [scoreEmployee_eq], by simp [scoreEmployee_eq], by simpa using hcond',
                rfl, ?_, ?_⟩
              · intro hn
                have hn2 : emp.embedding = none := hn
                simp only [hn2] at hsem
                exact (Except.ok.inj hsem).symm
              · intro emb hemb
                have hemb2 : emp.embedding = some emb := hemb
                simp only [hemb2] at hsem
                exact hsem
            · exact ih2 c hc'
    · rw [if_neg hcond] at h
      have hcond' :
          ¬ 0 < ((edges.filter (fun ed => ed.src == emp.eid)).filterMap (matchedOf rel)).length := by
        rw [scoreEmployee_eq] at hcond
        exact hcond
      obtain ⟨ih1, ih2⟩ := buildCandidates_ok_spec sq q rel edges rest full h
      refine ⟨?_, ih2⟩
      simp only [List.filter_cons]
      rw [if_neg (by simpa using hcond')]
      exact ih1

theorem searchE_ok_inversion (sq : ℚ → ℚ) (inp : SearchInput) (r : SearchResult)
    (h : searchE sq inp = .ok r) :
    ∃ q, inp.queryEmbedding = .ok q ∧
      ∃ rel, relevantSkills sq q inp.skills = .ok rel ∧
        ((rel = [] ∧ r = ⟨[], 0⟩) ∨
         (rel ≠ [] ∧
          ∃ full, buildCandidates sq q rel inp.edges
              (fetchEmployees inp.department inp.employees) = .ok full ∧
            r = ⟨(sortByDesc (fun c => c.matchScore) full).take inp.limit,
                 (sortByDesc (fun c => c.matchScore) full).length⟩)) := by
  simp only [searchE] at h
  split at h
  · exact absurd h (by simp)
  · rename_i q hq
    split at h
    · exact absurd h (by simp)
    · rename_i rel hrel
      refine ⟨q, hq, rel, hrel, ?_⟩
      split at h
      · rename_i hlen
        exact .inl ⟨List.length_eq_zero.mp hlen, by cases h; rfl⟩
      · rename_i hlen
        refine .inr ⟨fun hnil => hlen (by rw [hnil]; rfl), ?_⟩
        split at h
        · exact absurd h (by simp)
        · rename_i full hb
          exact ⟨full, hb, by cases h; rfl⟩

/-! ## Theorems -/

theorem normSq_cons (x : ℚ) (t : List ℚ) : normSq (x :: t) = x * x + normSq t := by
  simp [normSq]

theorem normSq_nonneg (l : List ℚ) : 0 ≤ normSq l := by
  apply List.sum_nonneg
  intro x hx
  obtain ⟨v, -, rfl⟩ := List.mem_map.mp hx
  exact mul_self_nonneg v

theorem normSq_cast_real : ∀ m : List ℚ,
    ((normSq m : ℚ) : ℝ) = (m.map (fun v : ℚ => ((v : ℝ)) ^ 2)).sum
  | [] => by simp [normSq]
  | x :: t => by
    rw [normSq_cons, List.map_cons, List.sum_cons, ← normSq_cast_real t]
    push_cast
    ring

theorem mockComponents_length : ∀ (n : ℕ) (s : ℤ), (mockComponents n s).length = n
  | 0, _ => rfl
  | n + 1, s => by simp [mockComponents, mockComponents_length n]

theorem prng_value_ne_zero (s : ℤ) :
    ((prngStep s : ℤ) : ℚ) / (2 ^ 31 - 1) * 2 - 1 ≠ 0 := by
  intro h0
  have h1 : ((prngStep s : ℤ) : ℚ) * 2 = 2 ^ 31 - 1 := by
    field_simp at h0
    linarith
  have h2 : prngStep s * 2 = 2 ^ 31 - 1 := by exact_mod_cast h1
  have h3 : (2 : ℤ) ^ 31 = 2147483648 := by norm_num
  rw [h3] at h2
  omega

theorem mockComponents_normSq_pos :
    ∀ (n : ℕ) (s : ℤ), 0 < n → 0 < normSq (mockComponents n s)
  | n + 1, s, _ => by
    simp only [mockComponents]
    rw [normSq_cons]
    have h1 : 0 < (((prngStep s : ℤ) : ℚ) / (2 ^ 31 - 1) * 2 - 1)
        * (((prngStep s : ℤ) : ℚ) / (2 ^ 31 - 1) * 2 - 1) :=
      mul_self_pos.mpr (prng_value_ne_zero s)
    have h2 : 0 ≤ normSq (mockComponents n (prngStep s)) := normSq_nonneg _
    linarith

/-- C3 (amended): each fetched skill's relevance is its cosine similarity
with the query embedding, with the fixed default `0.3` for skills lacking an
embedding; the relevant set consists exactly of the skills whose relevance
strictly exceeds the `0.4` floor, sorted by relevance descending and
truncated to the top 15 — and because `0.3` does not exceed the floor, a
never-embedded skill is always excluded (it has zero chance of matching via
graph signals, contrary to the claimed rationale). -/
theorem relevantSkills_spec (sq : ℚ → ℚ) (q : List ℚ) (skills : List Skill)
    (rel : List (Skill × ℚ)) (h : relevantSkills sq q skills = .ok rel) :
    (∀ p ∈ rel, p.1 ∈ skills ∧ skillRelevance sq q p.1 = .ok p.2 ∧
      2 / 5 < p.2 ∧ p.1.embedding ≠ none) ∧
    rel.length ≤ 15 ∧
    rel.Sorted (fun a b => b.2 ≤ a.2) ∧
    (rel.length < 15 → ∀ s ∈ skills, ∀ v, skillRelevance sq q s = .ok v →
      2 / 5 < v → ∃ p ∈ rel, p.1 = s ∧ p.2 = v) := by
  obtain ⟨scored, hs, hrel⟩ := relevantSkills_ok_inversion sq q skills rel h
  obtain ⟨hmap, hpt⟩ := scoredSkills_ok_spec sq q skills scored hs
  subst hrel
  have hperm := sortByDesc_perm (fun p : Skill × ℚ => p.2)
    (scored.filter (fun p => decide ((2 : ℚ) / 5 < p.2)))
  refine ⟨?_, ?_, ?_, ?_⟩
  · intro p hp
    have hp2 := hperm.subset (List.mem_of_mem_take hp)
    obtain ⟨hmem, hcond⟩ := List.mem_filter.mp hp2
    have hcond' : (2 : ℚ) / 5 < p.2 := of_decide_eq_true hcond
    have hskill : p.1 ∈ skills := by
      rw [← hmap]; exact List.mem_map_of_mem Prod.fst hmem
    have hrelp := hpt p hmem
    refine ⟨hskill, hrelp, hcond', ?_⟩
    intro hne
    simp only [skillRelevance, hne] at hrelp
    rw [← Except.ok.inj hrelp] at hcond'
    norm_num at hcond'
  · rw [List.length_take]; exact min_le_left _ _
  · exact List.Pairwise.sublist (List.take_sublist _ _)
      (sortByDesc_sorted (fun p : Skill × ℚ => p.2) _)
  · intro hlt s hsk v hv hvf
    have hlen : (sortByDesc (fun p : Skill × ℚ => p.2)
        (scored.filter (fun p => decide ((2 : ℚ) / 5 < p.2)))).length < 15 := by
      rw [List.length_take] at hlt; omega
    rw [List.take_of_length_le (le_of_lt hlen)]
    have hs' : s ∈ scored.map Prod.fst := by rw [hmap]; exact hsk
    obtain ⟨p, hpmem, hfst⟩ := List.mem_map.mp hs'
    have hp2 : p.2 = v := by
      have hpv := hpt p hpmem
      rw [hfst, hv] at hpv
      exact (Except.ok.inj hpv).symm
    refine ⟨p, ?_, hfst, hp2⟩
    exact hperm.mem_iff.mpr
      (List.mem_filter.mpr ⟨hpmem, decide_eq_true (by rw [hp2]; exact hvf)⟩)

/-- Witness for C3 (amended): on a store with one embedded skill (relevance
1) and one unembedded skill, the relevant set is the singleton, and its
entry satisfies every per-entry property. -/
theorem relevantSkills_spec_witness :
    exSkill ∈ [exSkill, exSkillB] ∧
    skillRelevance sqrtOracle [1, 0] exSkill = .ok 1 ∧
    (2 : ℚ) / 5 < 1 ∧ exSkill.embedding ≠ none :=
  (relevantSkills_spec sqrtOracle [1, 0] [exSkill, exSkillB] [(exSkill, 1)]
    (by norm_num [relevantSkills, scoredSkills, skillRelevance, cosineSimilarity,
      sqrtOracle, normSq, dotProduct, exSkill, exSkillB, sortByDesc,
      List.insertionSort, List.orderedInsert, List.filter])).1
    (exSkill, 1) (by simp)

/-- C2: every candidate produced by the hybrid search has
`graphScore = Σ` over the employee's possession edges of the edge weight
(`(proficiency/5) · relevance` of the first relevant entry with that skill
id, plus a flat `0.1` when certified, `0` for unmatched skills),
`semanticScore =` the cosine similarity with the employee's embedding when
present and the neutral default `0.5` otherwise, and
`matchScore = graphScore · 0.6 + semanticScore · 0.4`. -/
theorem candidate_score_formulas (sq : ℚ → ℚ) (inp : SearchInput) (r : SearchResult)
    (h : searchE sq inp = .ok r) (c : CandidateMatch) (hc : c ∈ r.candidates) :
    ∃ q rel, inp.queryEmbedding = .ok q ∧ relevantSkills sq q inp.skills = .ok rel ∧
      c.graphScore
        = ((inp.edges.filter (fun e => e.src == c.employee.eid)).map (edgeWeight rel)).sum ∧
      c.matchScore = c.graphScore * (3 / 5) + c.semanticScore * (2 / 5) ∧
      (c.employee.embedding = none → c.semanticScore = 1 / 2) ∧
      (∀ emb, c.employee.embedding = some emb →
        cosineSimilarity sq q emb = .ok c.semanticScore) := by
  obtain ⟨q, hq, rel, hrel, hcase⟩ := searchE_ok_inversion sq inp r h
  rcases hcase with ⟨-, hr⟩ | ⟨-, full, hfull, hr⟩
  · subst hr; exact absurd hc (by simp)
  · subst hr
    have hc2 : c ∈ (sortByDesc (fun c => c.matchScore) full).take inp.limit := hc
    have hcf : c ∈ full := (sortByDesc_perm _ full).subset (List.mem_of_mem_take hc2)
    obtain ⟨-, hall⟩ := buildCandidates_ok_spec sq q rel inp.edges _ full hfull
    obtain ⟨hg, -, -, hm, hsem1, hsem2⟩ := hall c hcf
    exact ⟨q, rel, hq, hrel, hg, hm, hsem1, hsem2⟩

/-- Witness for C2: the example search returns exactly the example candidate,
whose scores satisfy the formulas. -/
theorem candidate_score_formulas_witness :
    ∃ q rel, exInput.queryEmbedding = .ok q ∧
      relevantSkills sqrtOracle q exInput.skills = .ok rel ∧
      exCandidate.graphScore
        = ((exInput.edges.filter (fun e => e.src == exCandidate.employee.eid)).map (edgeWeight rel)).sum ∧
      exCandidate.matchScore
        = exCandidate.graphScore * (3 / 5) + exCandidate.semanticScore * (2 / 5) ∧
      (exCandidate.employee.embedding = none → exCandidate.semanticScore = 1 / 2) ∧
      (∀ emb, exCandidate.employee.embedding = some emb →
        cosineSimilarity sqrtOracle q emb = .ok exCandidate.semanticScore) :=
  candidate_score_formulas sqrtOracle exInput ⟨[exCandidate], 1⟩
    (by norm_num [searchE, exInput, relevantSkills, scoredSkills, skillRelevance,
      cosineSimilarity, sqrtOracle, normSq, dotProduct, sortByDesc, List.insertionSort,
      List.orderedInsert, fetchEmployees, buildCandidates, scoreEmployee, accumulateMatches,
      exSkill, exEmployee, exEdge, exCandidate, List.find?, List.filter])
    exCandidate (by simp)

/-- C4: the pre-truncation candidate list contains exactly the fetched
employees with at least one matched relevant skill, in store-fetch order;
the result's candidate list is that list stably sorted by matchScore
descending and truncated to `limit`; `totalMatches` is the pre-truncation
count; the sort is a permutation, is sorted descending, and candidates of
equal matchScore keep their relative fetch order (strictly increasing fetch
positions within ties). -/
theorem search_result_ordering (sq : ℚ → ℚ) (inp : SearchInput) (r : SearchResult)
    (q : List ℚ) (rel : List (Skill × ℚ)) (full : List CandidateMatch)
    (hq : inp.queryEmbedding = .ok q)
    (hrel : relevantSkills sq q inp.skills = .ok rel)
    (hne : rel ≠ [])
    (hfull : buildCandidates sq q rel inp.edges
      (fetchEmployees inp.department inp.employees) = .ok full)
    (h : searchE sq inp = .ok r) :
    full.map (fun c => c.employee)
      = (fetchEmployees inp.department inp.employees).filter
          (fun e => decide (0 < ((inp.edges.filter (fun ed => ed.src == e.eid)).filterMap
            (matchedOf rel)).length)) ∧
    r.totalMatches = full.length ∧
    r.candidates = (sortByDesc (fun c => c.matchScore) full).take inp.limit ∧
    (sortByDesc (fun c => c.matchScore) full).Perm full ∧
    (sortByDesc (fun c => c.matchScore) full).Sorted (fun a b => b.matchScore ≤ a.matchScore) ∧
    (sortByDesc (fun p => p.2.matchScore) full.enum).map Prod.snd
      = sortByDesc (fun c => c.matchScore) full ∧
    (sortByDesc (fun p => p.2.matchScore) full.enum).Pairwise
      (fun a b => b.2.matchScore ≤ a.2.matchScore ∧
        (a.2.matchScore ≤ b.2.matchScore → a.1 < b.1)) := by
  obtain ⟨q', hq', rel', hrel', hcase⟩ := searchE_ok_inversion sq inp r h
  rw [hq] at hq'
  obtain rfl : q = q' := Except.ok.inj hq'
  rw [hrel] at hrel'
  obtain rfl : rel = rel' := Except.ok.inj hrel'
  rcases hcase with ⟨hnil, -⟩ | ⟨-, full', hfull', hr⟩
  · exact absurd hnil hne
  · rw [hfull] at hfull'
    obtain rfl : full = full' := Except.ok.inj hfull'
    subst hr
    refine ⟨(buildCandidates_ok_spec sq q rel inp.edges _ full hfull).1, ?_, rfl, ?_, ?_, ?_, ?_⟩
    · exact sortByDesc_length _ full
    · exact sortByDesc_perm _ full
    · exact sortByDesc_sorted _ full
    · have he : full.enum = List.enumFrom 0 full := rfl
      rw [he, map_snd_sortByDesc_enumFrom]
    · have he : full.enum = List.enumFrom 0 full := rfl
      rw [he]
      exact sortByDesc_stable (fun c : CandidateMatch => c.matchScore) _
        (pairwise_fst_lt_enumFrom full 0)

/-- Witness for C4: the example search has exactly one candidate; its result
equals the (trivially sorted) take of the singleton pre-truncation list. -/
theorem search_result_ordering_witness :
    (SearchResult.mk [exCandidate] 1).candidates
      = (sortByDesc (fun c => c.matchScore) [exCandidate]).take exInput.limit :=
  (search_result_ordering sqrtOracle exInput ⟨[exCandidate], 1⟩ [1, 0] [(exSkill, 1)]
    [exCandidate]
    rfl
    (by norm_num [relevantSkills, scoredSkills, skillRelevance, cosineSimilarity,
      sqrtOracle, normSq, dotProduct, exSkill, exInput, sortByDesc,
      List.insertionSort, List.orderedInsert, List.filter])
    (by simp)
    (by norm_num [buildCandidates, scoreEmployee, accumulateMatches, fetchEmployees,
      cosineSimilarity, sqrtOracle, normSq, dotProduct, sortByDesc, List.insertionSort,
      List.orderedInsert, exSkill, exEmployee, exEdge, exCandidate, exInput,
      List.find?, List.filter])
    (by norm_num [searchE, exInput, relevantSkills, scoredSkills, skillRelevance,
      cosineSimilarity, sqrtOracle, normSq, dotProduct, sortByDesc, List.insertionSort,
      List.orderedInsert, fetchEmployees, buildCandidates, scoreEmployee, accumulateMatches,
      exSkill, exEmployee, exEdge, exCandidate, List.find?, List.filter])).2.2.1

/-- C1 (amended): for every returned candidate, under the documented input
ranges (proficiency in 1..5; every relevance at most 1), the graph score is
strictly positive and at most `1.1` per matched skill, the match score is
the fixed blend `0.6·graphScore + 0.4·semanticScore`, and with the semantic
score in `[-1, 1]` the match score lies in
`(-0.4, 0.66·|matchedSkills| + 0.4]` — the scores are not confined to
`[0, 1]`. -/
theorem candidate_score_bounds (sq : ℚ → ℚ) (inp : SearchInput) (r : SearchResult)
    (q : List ℚ) (rel : List (Skill × ℚ))
    (hq : inp.queryEmbedding = .ok q)
    (hrel : relevantSkills sq q inp.skills = .ok rel)
    (hrelmax : ∀ p ∈ rel, p.2 ≤ 1)
    (hprof : ∀ e ∈ inp.edges, 1 ≤ e.proficiency ∧ e.proficiency ≤ 5)
    (h : searchE sq inp = .ok r)
    (c : CandidateMatch) (hc : c ∈ r.candidates) :
    0 < c.graphScore ∧
    c.graphScore ≤ 11 / 10 * (c.matchedSkills.length : ℚ) ∧
    c.matchScore = c.graphScore * (3 / 5) + c.semanticScore * (2 / 5) ∧
    (-1 ≤ c.semanticScore → c.semanticScore ≤ 1 →
      -(2 / 5) < c.matchScore ∧
      c.matchScore ≤ 33 / 50 * (c.matchedSkills.length : ℚ) + 2 / 5) := by
  have hfloor : ∀ p ∈ rel, 2 / 5 < p.2 :=
    relevantSkills_mem_floor sq q inp.skills rel hrel
  have hpos : ∀ p ∈ rel, 0 ≤ p.2 := fun p hp =>
    le_of_lt (lt_trans (by norm_num) (hfloor p hp))
  obtain ⟨q', hq', rel', hrel', hcase⟩ := searchE_ok_inversion sq inp r h
  rw [hq] at hq'
  obtain rfl : q = q' := Except.ok.inj hq'
  rw [hrel] at hrel'
  obtain rfl : rel = rel' := Except.ok.inj hrel'
  rcases hcase with ⟨-, hr⟩ | ⟨-, full, hfull, hr⟩
  · subst hr; exact absurd hc (by simp)
  · subst hr
    have hc2 : c ∈ (sortByDesc (fun c => c.matchScore) full).take inp.limit := hc
    have hcf : c ∈ full := (sortByDesc_perm _ full).subset (List.mem_of_mem_take hc2)
    obtain ⟨-, hall⟩ := buildCandidates_ok_spec sq q rel inp.edges _ full hfull
    obtain ⟨hg, hmatched, hlen, hm, -, -⟩ := hall c hcf
    have hsub : ∀ e ∈ inp.edges.filter (fun e => e.src == c.employee.eid), e ∈ inp.edges :=
      fun e he => List.mem_of_mem_filter he
    have h1 : ∀ e ∈ inp.edges.filter (fun e => e.src == c.employee.eid), 1 ≤ e.proficiency :=
      fun e he => (hprof e (hsub e he)).1
    have h5 : ∀ e ∈ inp.edges.filter (fun e => e.src == c.employee.eid), e.proficiency ≤ 5 :=
      fun e he => (hprof e (hsub e he)).2
    have hgpos : 0 < c.graphScore := by
      rw [hg]; exact weight_sum_pos rel hpos hfloor _ h1 hlen
    have hmlen : (c.matchedSkills.length : ℚ)
        = (((inp.edges.filter (fun e => e.src == c.employee.eid)).filterMap
            (matchedOf rel)).length : ℚ) := by
      rw [hmatched, sortByDesc_length]
    have hgle : c.graphScore ≤ 11 / 10 * (c.matchedSkills.length : ℚ) := by
      rw [hg, hmlen]; exact weight_sum_le_matched rel hrelmax hpos _ h5
    refine ⟨hgpos, hgle, hm, ?_⟩
    intro hs1 hs2
    constructor
    · rw [hm]; linarith
    · rw [hm]; linarith

/-- Witness for C1 (amended): the example candidate's graph score is
positive and bounded by `1.1` times its single matched skill. -/
theorem candidate_score_bounds_witness :
    0 < exCandidate.graphScore ∧
    exCandidate.graphScore ≤ 11 / 10 * (exCandidate.matchedSkills.length : ℚ) :=
  let hb := candidate_score_bounds sqrtOracle exInput ⟨[exCandidate], 1⟩ [1, 0]
    [(exSkill, 1)]
    rfl
    (by norm_num [relevantSkills, scoredSkills, skillRelevance, cosineSimilarity,
      sqrtOracle, normSq, dotProduct, exSkill, exInput, sortByDesc,
      List.insertionSort, List.orderedInsert, List.filter])
    (by norm_num [exSkill])
    (by norm_num [exInput, exEdge])
    (by norm_num [searchE, exInput, relevantSkills, scoredSkills, skillRelevance,
      cosineSimilarity, sqrtOracle, normSq, dotProduct, sortByDesc, List.insertionSort,
      List.orderedInsert, fetchEmployees, buildCandidates, scoreEmployee, accumulateMatches,
      exSkill, exEmployee, exEdge, exCandidate, List.find?, List.filter])
    exCandidate (by simp)
  ⟨hb.1, hb.2.1⟩

/-- C6: `cosineSimilarity` raises the dimension-mismatch error exactly when
the input lengths differ (no truncation or padding), and on equal-length
input it returns `dot(a,b) / (‖a‖·‖b‖)` — here phrased through the exact
square-root oracle — returning exactly `0` whenever either vector has zero
norm. -/
theorem cosineSimilarity_spec (sq : ℚ → ℚ) (a b : List ℚ)
    (ha : sq (normSq a) * sq (normSq a) = normSq a)
    (hb : sq (normSq b) * sq (normSq b) = normSq b)
    (ha0 : 0 ≤ sq (normSq a)) (hb0 : 0 ≤ sq (normSq b)) :
    ((∃ msg, cosineSimilarity sq a b = .error msg) ↔ a.length ≠ b.length) ∧
    (a.length = b.length →
      ∃ r, cosineSimilarity sq a b = .ok r ∧
        ((normSq a = 0 ∨ normSq b = 0) → r = 0) ∧
        (normSq a ≠ 0 → normSq b ≠ 0 →
          sq (normSq a) * sq (normSq b) ≠ 0 ∧
          r = dotProduct a b / (sq (normSq a) * sq (normSq b)))) := by
  by_cases hlen : a.length = b.length
  · have hne : ¬ a.length ≠ b.length := fun h => h hlen
    have hval : cosineSimilarity sq a b =
        .ok (if sq (normSq a) * sq (normSq b) = 0 then 0
             else dotProduct a b / (sq (normSq a) * sq (normSq b))) := by
      simp only [cosineSimilarity, if_neg hne]
    refine ⟨⟨?_, fun h => absurd hlen h⟩, fun _ => ⟨_, hval, ?_, ?_⟩⟩
    · rintro ⟨msg, hmsg⟩
      rw [hval] at hmsg
      exact Except.noConfusion hmsg
    · rintro (h0 | h0)
      · have hs : sq (normSq a) = 0 := by
          rw [h0] at ha ⊢; exact mul_self_eq_zero.mp ha
        simp [hs]
      · have hs : sq (normSq b) = 0 := by
          rw [h0] at hb ⊢; exact mul_self_eq_zero.mp hb
        simp [hs]
    · intro hna hnb
      have hsa : sq (normSq a) ≠ 0 := fun h => hna (by rw [← ha, h, mul_zero])
      have hsb : sq (normSq b) ≠ 0 := fun h => hnb (by rw [← hb, h, mul_zero])
      have hm : sq (normSq a) * sq (normSq b) ≠ 0 := mul_ne_zero hsa hsb
      exact ⟨hm, by rw [if_neg hm]⟩
  · have hval : cosineSimilarity sq a b = .error "Vector dimension mismatch" := by
      simp only [cosineSimilarity, if_pos hlen]
    exact ⟨⟨fun _ => hlen, fun _ => ⟨_, hval⟩⟩, fun h => absurd h hlen⟩

/-- Witness for C6: evaluating at `a = [3,4]` (norm 5) and `b = [0,0]` (zero
norm) through the exact oracle yields the result `0`. -/
theorem cosineSimilarity_spec_witness :
    cosineSimilarity sqrtOracle [3, 4] [0, 0] = .ok 0 := by
  obtain ⟨r, hr, hzero, -⟩ :=
    (cosineSimilarity_spec sqrtOracle [3, 4] [0, 0]
      (by norm_num [sqrtOracle, normSq]) (by norm_num [sqrtOracle, normSq])
      (by norm_num [sqrtOracle, normSq]) (by norm_num [sqrtOracle, normSq])).2
      (by decide)
  rw [hr, hzero (Or.inr (by norm_num [normSq]))]

/-- C5: the search operation is a total function of its input; whenever the
pipeline inside the `try` fails with any error, the caller receives the empty
result with `totalMatches = 0` instead of the exception. -/
theorem search_never_throws (sq : ℚ → ℚ) (inp : SearchInput) :
    (∃ r, searchE sq inp = .ok r ∧ search sq inp = r) ∨
    (∃ msg, searchE sq inp = .error msg ∧ search sq inp = ⟨[], 0⟩) := by
  cases h : searchE sq inp with
  | ok r => exact .inl ⟨r, rfl, by simp [search, h]⟩
  | error msg => exact .inr ⟨msg, rfl, by simp [search, h]⟩

/-- C7: an empty relevant-skill set short-circuits the search to the empty
result with `totalMatches = 0`, and the output is then independent of the
employee table and the edge table (the store is never consulted for them). -/
theorem search_shortCircuit_no_relevant (sq : ℚ → ℚ) (inp : SearchInput) (q : List ℚ)
    (hq : inp.queryEmbedding = .ok q)
    (hrel : relevantSkills sq q inp.skills = .ok []) :
    search sq inp = ⟨[], 0⟩ ∧
    ∀ emps edges,
      search sq { inp with employees := emps, edges := edges } = ⟨[], 0⟩ := by
  obtain ⟨qe, dept, lim, sk, em, ed⟩ := inp
  simp only [SearchInput.queryEmbedding] at hq
  simp only [SearchInput.skills] at hrel
  constructor
  · simp [search, searchE, hq, hrel]
  · intro emps edges
    simp [search, searchE, hq, hrel]

/-- Witness for C7: the empty store produces the empty relevant set and the
short-circuited empty result, whatever employees or edges are added. -/
theorem search_shortCircuit_no_relevant_witness :
    search sqrtOracle emptyStoreInput = ⟨[], 0⟩ ∧
    ∀ emps edges,
      search sqrtOracle { emptyStoreInput with employees := emps, edges := edges } = ⟨[], 0⟩ :=
  search_shortCircuit_no_relevant sqrtOracle emptyStoreInput [1] rfl rfl

/-- C1 is false as stated: with every input inside its documented range
(proficiency 5 ∈ {1..5}, all cosine similarities equal to 1 ∈ [-1,1]), the
returned candidate has `graphScore = 1.1 > 1` (one certified relevance-1
proficiency-5 skill) and `matchScore = 1.06 > 1`. -/
theorem search_scores_exceed_unit_interval :
    (search sqrtOracle exInput).candidates = [exCandidate] ∧
    exCandidate.graphScore = 11 / 10 ∧ exCandidate.matchScore = 53 / 50 ∧
    ¬ exCandidate.graphScore ≤ 1 ∧ ¬ exCandidate.matchScore ≤ 1 := by
  refine ⟨?_, rfl, rfl, by norm_num [exCandidate], by norm_num [exCandidate]⟩
  norm_num [search, searchE, exInput, relevantSkills, scoredSkills, skillRelevance,
    cosineSimilarity, sqrtOracle, normSq, dotProduct, sortByDesc, List.insertionSort,
    List.orderedInsert, fetchEmployees, buildCandidates, scoreEmployee, accumulateMatches,
    exSkill, exEmployee, exEdge, exCandidate, List.find?, List.filter]

/-- C3 is false in its rationale: a skill with no embedding receives the
default relevance `0.3`, but the floor is a strict `> 0.4`, so a
never-embedded skill is always excluded from the relevant set and has zero
chance of matching via graph signals — here a certified proficiency-5 holder
of the only (unembedded) skill is not returned. -/
theorem unembedded_skill_never_matches :
    skillRelevance sqrtOracle [1, 0] exSkillNoEmb = .ok (3 / 10) ∧
    relevantSkills sqrtOracle [1, 0] [exSkillNoEmb] = .ok [] ∧
    search sqrtOracle exInputNoEmb = ⟨[], 0⟩ := by
  refine ⟨rfl, ?_, ?_⟩
  · norm_num [relevantSkills, scoredSkills, skillRelevance, exSkillNoEmb,
      sortByDesc, List.insertionSort, List.filter]
  · norm_num [search, searchE, exInputNoEmb, relevantSkills, scoredSkills, skillRelevance,
      exSkillNoEmb, sortByDesc, List.insertionSort, List.filter]

/-- C8 is false in its boundedness clause: the 1-unit floor is applied to the
direction-normalising distance only, not to the squared distance dividing the
repulsion constant, so two same-type nodes at distance 1/2 exert a force of
magnitude `2500 / (1/4) = 10000`, four times the repulsion constant. -/
theorem repulsion_exceeds_constant_counterexample :
    repulsionForce sqrtOracle (1 / 2) 0 0 0 true = (10000, 0) ∧
    ¬ (repulsionForce sqrtOracle (1 / 2) 0 0 0 true).1 ≤ repulsionStrength true := by
  norm_num [repulsionForce, repulsionStrength, sqrtOracle]

/-- C8 (amended): for non-coincident nodes the squared magnitude of the
pairwise repulsion force is exactly `(strength / distSq)²` — inverse-square
in the distance, with strength 2500 for same-type and 1500 for cross-type
pairs; the magnitude is bounded by the strength exactly on distances of at
least 1 and exceeds it strictly below 1 (the 1-unit floor only normalises
the direction vector). -/
theorem repulsionForce_spec (sq : ℚ → ℚ) (nx ny ox oy : ℚ) (st : Bool)
    (hsq : sq ((nx - ox) * (nx - ox) + (ny - oy) * (ny - oy))
         * sq ((nx - ox) * (nx - ox) + (ny - oy) * (ny - oy))
         = (nx - ox) * (nx - ox) + (ny - oy) * (ny - oy))
    (hne : (nx - ox) * (nx - ox) + (ny - oy) * (ny - oy) ≠ 0) :
    (repulsionForce sq nx ny ox oy st).1 * (repulsionForce sq nx ny ox oy st).1
      + (repulsionForce sq nx ny ox oy st).2 * (repulsionForce sq nx ny ox oy st).2
      = (repulsionStrength st / ((nx - ox) * (nx - ox) + (ny - oy) * (ny - oy)))
        * (repulsionStrength st / ((nx - ox) * (nx - ox) + (ny - oy) * (ny - oy))) ∧
    (1 ≤ (nx - ox) * (nx - ox) + (ny - oy) * (ny - oy) →
      (repulsionForce sq nx ny ox oy st).1 * (repulsionForce sq nx ny ox oy st).1
        + (repulsionForce sq nx ny ox oy st).2 * (repulsionForce sq nx ny ox oy st).2
        ≤ repulsionStrength st * repulsionStrength st) ∧
    ((nx - ox) * (nx - ox) + (ny - oy) * (ny - oy) < 1 →
      repulsionStrength st * repulsionStrength st
        < (repulsionForce sq nx ny ox oy st).1 * (repulsionForce sq nx ny ox oy st).1
          + (repulsionForce sq nx ny ox oy st).2 * (repulsionForce sq nx ny ox oy st).2) ∧
    repulsionStrength true = 2500 ∧ repulsionStrength false = 1500 := by
  set dx := nx - ox with hdx
  set dy := ny - oy with hdy
  set dSq := dx * dx + dy * dy with hdSq
  have hd0 : 0 < dSq := by
    rcases lt_or_eq_of_le (by nlinarith [sq_nonneg dx, sq_nonneg dy] : (0 : ℚ) ≤ dSq) with h0 | h0
    · exact h0
    · exact absurd h0.symm hne
  have hsne : sq dSq ≠ 0 := fun h0 => hne (by rw [← hsq, h0, mul_zero])
  have hf : repulsionForce sq nx ny ox oy st
      = (dx / sq dSq * (repulsionStrength st / dSq),
         dy / sq dSq * (repulsionStrength st / dSq)) := by
    simp only [repulsionForce, ← hdx, ← hdy, ← hdSq, if_neg hsne]
  have hmag : (repulsionForce sq nx ny ox oy st).1 * (repulsionForce sq nx ny ox oy st).1
      + (repulsionForce sq nx ny ox oy st).2 * (repulsionForce sq nx ny ox oy st).2
      = (repulsionStrength st / dSq) * (repulsionStrength st / dSq) := by
    rw [hf]
    have hss : sq dSq * sq dSq = dx * dx + dy * dy := by rw [hsq, hdSq]
    calc (dx / sq dSq * (repulsionStrength st / dSq))
            * (dx / sq dSq * (repulsionStrength st / dSq))
          + (dy / sq dSq * (repulsionStrength st / dSq))
            * (dy / sq dSq * (repulsionStrength st / dSq))
        = ((dx * dx + dy * dy) / (sq dSq * sq dSq))
            * ((repulsionStrength st / dSq) * (repulsionStrength st / dSq)) := by
          ring
      _ = ((sq dSq * sq dSq) / (sq dSq * sq dSq))
            * ((repulsionStrength st / dSq) * (repulsionStrength st / dSq)) := by
          rw [hss]
      _ = (repulsionStrength st / dSq) * (repulsionStrength st / dSq) := by
          rw [div_self (mul_ne_zero hsne hsne), one_mul]
  have hstr : 0 < repulsionStrength st := by
    rcases st with _ | _ <;> norm_num [repulsionStrength]
  refine ⟨hmag, ?_, ?_, rfl, rfl⟩
  · intro hge
    rw [hmag]
    have hle : repulsionStrength st / dSq ≤ repulsionStrength st := by
      rw [div_le_iff₀ hd0]
      nlinarith
    have hfp : 0 < repulsionStrength st / dSq := div_pos hstr hd0
    nlinarith
  · intro hlt
    rw [hmag]
    have hgt : repulsionStrength st < repulsionStrength st / dSq := by
      rw [lt_div_iff₀ hd0]
      nlinarith
    nlinarith

theorem range_split_at (n i : ℕ) (h : i < n) :
    List.range n = List.range' 0 i ++ i :: List.range' (i + 1) (n - i - 1) := by
  have h2 : (n - i) + i = n := by omega
  have h1 : List.range' 0 i 1 ++ List.range' (0 + 1 * i) (n - i) 1
      = List.range' 0 ((n - i) + i) 1 := List.range'_append 0 i (n - i) 1
  have h3 : List.range' (0 + 1 * i) (n - i) 1
      = i :: List.range' (i + 1) (n - i - 1) 1 := by
    have h0 : 0 + 1 * i = i := by omega
    have h4 : n - i = (n - i - 1) + 1 := by omega
    rw [h0]
    rw [h4, List.range'_succ]
    have h5 : n - i - 1 + 1 - 1 = n - i - 1 := by omega
    rw [h5]
  rw [List.range_eq_range', ← h2, ← h1, h3]
  have h6 : n - i + i - i - 1 = n - i - 1 := by omega
  rw [h6]

theorem applyForcesAt_getElem_ne (sq : ℚ → ℚ) (w h : ℚ) (dragging : Option ℕ)
    (edges : List GraphEdge) (a : List GraphNode) (i j : ℕ) (hij : j ≠ i) :
    (applyForcesAt sq w h dragging edges a i)[j]? = a[j]? := by
  rw [applyForcesAt]
  split
  · rfl
  · split
    · rfl
    · have hne : i ≠ j := fun hh => hij hh.symm
      simp [List.getElem?_set, hne]

theorem foldl_applyForcesAt_not_mem (sq : ℚ → ℚ) (w h : ℚ) (dragging : Option ℕ)
    (edges : List GraphEdge) :
    ∀ (l : List ℕ) (a : List GraphNode) (i : ℕ), i ∉ l →
      (l.foldl (applyForcesAt sq w h dragging edges) a)[i]? = a[i]?
  | [], _, _, _ => rfl
  | j :: rest, a, i, hi => by
    rw [List.foldl_cons,
      foldl_applyForcesAt_not_mem sq w h dragging edges rest _ i
        (fun hh => hi (List.mem_cons_of_mem j hh))]
    exact applyForcesAt_getElem_ne sq w h dragging edges a j i
      (fun hh => hi (hh ▸ List.mem_cons_self j rest))

theorem clampAxis_eq (hi2 pos vel : ℚ) :
    clampAxis hi2 pos vel
      = if pos < 40 then
          (if hi2 < 40 then (hi2, vel * (-1 / 2) * (-1 / 2)) else (40, vel * (-1 / 2)))
        else
          (if hi2 < pos then (hi2, vel * (-1 / 2)) else (pos, vel)) := by
  by_cases h1 : pos < 40 <;> simp [clampAxis, h1]

theorem clampAxis_bounds (hi2 pos vel : ℚ) (hge : 40 ≤ hi2) :
    40 ≤ (clampAxis hi2 pos vel).1 ∧ (clampAxis hi2 pos vel).1 ≤ hi2 := by
  rw [clampAxis_eq]
  split_ifs <;> dsimp only <;> constructor <;> linarith

theorem clampAxis_cross_lo (hi2 pos vel : ℚ) (hge : 40 ≤ hi2) (h : pos < 40) :
    clampAxis hi2 pos vel = (40, vel * (-1 / 2)) := by
  rw [clampAxis_eq, if_pos h, if_neg (not_lt.mpr hge)]

theorem clampAxis_cross_hi (hi2 pos vel : ℚ) (h1 : ¬ pos < 40) (h2 : hi2 < pos) :
    clampAxis hi2 pos vel = (hi2, vel * (-1 / 2)) := by
  rw [clampAxis_eq, if_neg h1, if_pos h2]

theorem integrate_bounds (sq : ℚ → ℚ) (w h : ℚ) (node : GraphNode) (f : ℚ × ℚ)
    (hw : 80 ≤ w) (hh : 80 ≤ h) :
    (integrate sq w h node f).nid = node.nid ∧
    40 ≤ (integrate sq w h node f).x ∧ (integrate sq w h node f).x ≤ w - 40 ∧
    40 ≤ (integrate sq w h node f).y ∧ (integrate sq w h node f).y ≤ h - 40 := by
  have hwx : (40 : ℚ) ≤ w - 40 := by linarith
  have hhy : (40 : ℚ) ≤ h - 40 := by linarith
  simp only [integrate]
  exact ⟨trivial, (clampAxis_bounds _ _ _ hwx).1, (clampAxis_bounds _ _ _ hwx).2,
    (clampAxis_bounds _ _ _ hhy).1, (clampAxis_bounds _ _ _ hhy).2⟩

theorem applyForcesAt_getElem_self (sq : ℚ → ℚ) (w h : ℚ) (dragging : Option ℕ)
    (edges : List GraphEdge) (a : List GraphNode) (i : ℕ) (node : GraphNode)
    (hi : a[i]? = some node) (hd : ¬ dragging = some node.nid)
    (hw : 80 ≤ w) (hh : 80 ≤ h) :
    ∃ n', (applyForcesAt sq w h dragging edges a i)[i]? = some n' ∧
      n'.nid = node.nid ∧ 40 ≤ n'.x ∧ n'.x ≤ w - 40 ∧ 40 ≤ n'.y ∧ n'.y ≤ h - 40 := by
  obtain ⟨hlen, -⟩ := List.getElem?_eq_some.mp hi
  have hset : ∀ X : GraphNode, (a.set i X)[i]? = some X := fun X => by
    rw [List.getElem?_set]
    simp [hlen]
  simp only [applyForcesAt, hi]
  rw [if_neg hd]
  exact ⟨_, hset _, (integrate_bounds sq w h node _ hw hh).1,
    (integrate_bounds sq w h node _ hw hh).2.1,
    (integrate_bounds sq w h node _ hw hh).2.2.1,
    (integrate_bounds sq w h node _ hw hh).2.2.2.1,
    (integrate_bounds sq w h node _ hw hh).2.2.2.2⟩

/-- C9: after a full simulation tick, every non-dragged node lies inside the
viewport inset by the 40-unit margin on all four sides (for a viewport at
least 80 units wide and tall, so that the inset rectangle is nonempty), and
the boundary clamp sets a coordinate that crosses a margin to exactly the
margin value while multiplying the corresponding velocity component by
`-0.5`. -/
theorem simulateStep_bounds (sq : ℚ → ℚ) (w h : ℚ) (dragging : Option ℕ)
    (edges : List GraphEdge) (nodes : List GraphNode) (i : ℕ) (node : GraphNode)
    (hw : 80 ≤ w) (hh : 80 ≤ h)
    (hi : nodes[i]? = some node)
    (hd : ¬ dragging = some node.nid) :
    (∃ n', (simulateStep sq w h dragging edges nodes)[i]? = some n' ∧
      n'.nid = node.nid ∧ 40 ≤ n'.x ∧ n'.x ≤ w - 40 ∧ 40 ≤ n'.y ∧ n'.y ≤ h - 40) ∧
    (∀ hi2 pos vel, 40 ≤ hi2 →
      (pos < 40 → clampAxis hi2 pos vel = (40, vel * (-1 / 2))) ∧
      (¬ pos < 40 → hi2 < pos → clampAxis hi2 pos vel = (hi2, vel * (-1 / 2)))) := by
  constructor
  · obtain ⟨hlen, -⟩ := List.getElem?_eq_some.mp hi
    have hne0 : ¬ nodes.length = 0 := by omega
    rw [simulateStep, if_neg hne0, range_split_at nodes.length i hlen,
      List.foldl_append, List.foldl_cons]
    have hAi : ((List.range' 0 i).foldl (applyForcesAt sq w h dragging edges) nodes)[i]?
        = some node := by
      rw [foldl_applyForcesAt_not_mem]
      · exact hi
      · intro hmem
        rw [List.mem_range'] at hmem
        omega
    obtain ⟨n', hn', hnid, hx1, hx2, hy1, hy2⟩ :=
      applyForcesAt_getElem_self sq w h dragging edges _ i node hAi hd hw hh
    refine ⟨n', ?_, hnid, hx1, hx2, hy1, hy2⟩
    rw [foldl_applyForcesAt_not_mem]
    · exact hn'
    · intro hmem
      rw [List.mem_range'] at hmem
      omega
  · intro hi2 pos vel hge
    exact ⟨fun hcross => clampAxis_cross_lo hi2 pos vel hge hcross,
      fun h1 h2 => clampAxis_cross_hi hi2 pos vel h1 h2⟩

/-- Witness for C9: a lone node at the origin is pulled toward the center,
crosses the left/top margins, and ends the tick exactly on the inset
rectangle's corner. -/
theorem simulateStep_bounds_witness :
    ∃ n', (simulateStep sqrtOracle 100 100 none []
        [⟨1, .employee, 0, 0, 0, 0⟩])[0]? = some n' ∧
      n'.nid = (⟨1, .employee, 0, 0, 0, 0⟩ : GraphNode).nid ∧
      40 ≤ n'.x ∧ n'.x ≤ 100 - 40 ∧ 40 ≤ n'.y ∧ n'.y ≤ 100 - 40 :=
  (simulateStep_bounds sqrtOracle 100 100 none [] [⟨1, .employee, 0, 0, 0, 0⟩] 0
    ⟨1, .employee, 0, 0, 0, 0⟩ (by norm_num) (by norm_num) rfl (by simp)).1

/-- Witness for C8 (amended): at squared distance 1/4 (same type) the
squared force magnitude strictly exceeds the squared repulsion constant. -/
theorem repulsionForce_spec_witness :
    repulsionStrength true * repulsionStrength true
      < (repulsionForce sqrtOracle (1 / 2) 0 0 0 true).1
          * (repulsionForce sqrtOracle (1 / 2) 0 0 0 true).1
        + (repulsionForce sqrtOracle (1 / 2) 0 0 0 true).2
          * (repulsionForce sqrtOracle (1 / 2) 0 0 0 true).2 :=
  (repulsionForce_spec sqrtOracle (1 / 2) 0 0 0 true
    (by norm_num [sqrtOracle]) (by norm_num)).2.2.1 (by norm_num)

/-- C10: the mock embedding provider is deterministic and
case/whitespace-insensitive — two texts equal after lowercasing and trimming
produce identical raw vectors (hence identical normalised vectors) — the
vector has dimension 384, its raw squared norm is strictly positive (no PRNG
component can be exactly 0, by parity of `2^31 - 1`), and the normalised
vector `v / ‖v‖` has unit Euclidean norm over `ℝ`. -/
theorem mock_embedding_spec (t1 t2 : String) (hEq : t1.toLower.trim = t2.toLower.trim) :
    mockRawEmbedding t1 = mockRawEmbedding t2 ∧
    (mockRawEmbedding t1).length = 384 ∧
    0 < normSq (mockRawEmbedding t1) ∧
    ((mockRawEmbedding t1).map
      (fun v : ℚ => ((v : ℝ) / Real.sqrt ((normSq (mockRawEmbedding t1) : ℚ) : ℝ)) ^ 2)).sum
      = 1 := by
  have hdet : mockRawEmbedding t1 = mockRawEmbedding t2 := by
    rw [mockRawEmbedding, mockRawEmbedding, hEq]
  have hpos : 0 < normSq (mockRawEmbedding t1) :=
    mockComponents_normSq_pos 384 _ (by norm_num)
  refine ⟨hdet, mockComponents_length 384 _, hpos, ?_⟩
  have hSR : (0 : ℝ) < ((normSq (mockRawEmbedding t1) : ℚ) : ℝ) := by exact_mod_cast hpos
  have hsqrt : Real.sqrt ((normSq (mockRawEmbedding t1) : ℚ) : ℝ) ^ 2
      = ((normSq (mockRawEmbedding t1) : ℚ) : ℝ) := Real.sq_sqrt hSR.le
  have hstep : ((mockRawEmbedding t1).map
      (fun v : ℚ => ((v : ℝ) / Real.sqrt ((normSq (mockRawEmbedding t1) : ℚ) : ℝ)) ^ 2)).sum
      = ((mockRawEmbedding t1).map
        (fun v : ℚ => ((v : ℝ)) ^ 2 * (((normSq (mockRawEmbedding t1) : ℚ) : ℝ))⁻¹)).sum := by
    refine congrArg List.sum ?_
    apply List.map_congr_left
    intro v hv
    rw [div_pow, hsqrt, div_eq_mul_inv]
  rw [hstep, List.sum_map_mul_right, ← normSq_cast_real]
  exact mul_inv_cancel₀ (ne_of_gt hSR)

/-- Witness for C10: a concrete text produces a 384-dimensional raw vector
(hypothesis discharged by reflexivity of the lowercased-and-trimmed text). -/
theorem mock_embedding_spec_witness :
    (mockRawEmbedding "machine learning").length = 384 :=
  (mock_embedding_spec "machine learning" "machine learning" rfl).2.1

end Demo
